import Mathlib

/-!
# Verification of the wt-manager worktree tool

Shallow embedding of the core of `wt-manager` (a Rust git-worktree manager)
and proofs about it.  The embedding covers:

* `src/worktree.rs` — path addressing (`get_hashed_name`, `get_worktree_base`,
  `get_worktree_path`) and the orchestrator `handle_worktree`;
* `src/git.rs` — the porcelain parser `parse_worktree_list`; the git
  subprocess itself is an external collaborator, modelled as an oracle;
* `src/tui.rs` — the selector session `run_input_selector`, modelled as a
  step function over the query string driven by a list of key events, and
  the `__CREATE_NEW__` sentinel decoding done by `show_worktree_selector`;
* `src/db.rs` / `src/main.rs` — the project registry upsert (`save_project`)
  and the entry flow `handle_git_repo`.

Paths are modelled as plain Unix path strings; `PathBuf::join` with a
relative segment is string concatenation with a `/` separator (git branch
names and the fixed segments used by the tool never begin with `/`).
Machine integers are `Nat` with explicit `% 2^32` where the Rust code
wraps.  The SHA-256 digest used by `get_hashed_name` (the `sha2` crate) is
implemented in full so that everything is executable.
-/

namespace WtManager

/-! ## Character and list utilities -/

/-- Split a list of characters at every occurrence of `sep`, keeping empty
segments — the splitting underlying path components and line splitting. -/
def splitChar (sep : Char) : List Char → List (List Char)
  | [] => [[]]
  | c :: cs =>
    if c = sep then [] :: splitChar sep cs
    else
      match splitChar sep cs with
      | [] => [[c]]
      | h :: t => (c :: h) :: t

/-- The characters of `l` strictly before the first occurrence of the
substring `sep`; the whole of `l` if `sep` never occurs.  This is Rust's
`l.split(sep).next().unwrap_or(l)`. -/
def takeBeforeSub (sep : List Char) : List Char → List Char
  | [] => []
  | c :: cs => if sep.isPrefixOf (c :: cs) then [] else c :: takeBeforeSub sep cs

/-- Fuel-driven repeated prefix stripping (structural so the kernel can
evaluate it). -/
def trimAllAux (pre : List Char) : Nat → List Char → List Char
  | 0, l => l
  | fuel + 1, l =>
    if pre ≠ [] ∧ pre.isPrefixOf l then trimAllAux pre fuel (l.drop pre.length)
    else l

/-- Rust's `str::trim_start_matches`: remove every leading repetition of the
pattern `pre`. -/
def trimAll (pre l : List Char) : List Char := trimAllAux pre l.length l

/-- Rust's `char::to_ascii_lowercase`. -/
def toLowerAscii (c : Char) : Char :=
  if 'A' ≤ c ∧ c ≤ 'Z' then Char.ofNat (c.toNat + 32) else c

/-- Rust's `str::eq_ignore_ascii_case`. -/
def eqIgnoreAsciiCase (a b : String) : Bool :=
  a.toList.map toLowerAscii == b.toList.map toLowerAscii

/-- Rust's `str::lines`: split on `'\n'`, dropping one trailing empty line,
and stripping a trailing `'\r'` from each line. -/
def rustLines (s : String) : List String :=
  let parts := splitChar '\n' s.toList
  let parts := if parts.getLast? = some [] then parts.dropLast else parts
  parts.map fun l => String.mk (if l.getLast? = some '\r' then l.dropLast else l)

/-! ## UTF-8 encoding

`get_hashed_name` hashes the UTF-8 bytes of the repository path string
(`path_str.as_bytes()`).  Bytes are `Nat`s below 256. -/

/-- UTF-8 encoding of a single scalar value. -/
def utf8Char (c : Char) : List Nat :=
  let n := c.toNat
  if n < 0x80 then [n]
  else if n < 0x800 then
    [0xC0 ||| (n >>> 6), 0x80 ||| (n &&& 0x3F)]
  else if n < 0x10000 then
    [0xE0 ||| (n >>> 12), 0x80 ||| ((n >>> 6) &&& 0x3F), 0x80 ||| (n &&& 0x3F)]
  else
    [0xF0 ||| (n >>> 18), 0x80 ||| ((n >>> 12) &&& 0x3F),
     0x80 ||| ((n >>> 6) &&& 0x3F), 0x80 ||| (n &&& 0x3F)]

/-- The UTF-8 bytes of a string, as Rust's `str::as_bytes`. -/
def utf8Bytes (s : String) : List Nat := s.toList.flatMap utf8Char

/-! ## SHA-256 (the `sha2` crate's `Sha256`)

A faithful executable implementation of FIPS 180-4 SHA-256 over byte lists;
32-bit words are `Nat`s reduced `% 2^32`. -/

/-- 32-bit right rotation. -/
def rotr32 (n x : Nat) : Nat := ((x >>> n) ||| (x <<< (32 - n))) % 2 ^ 32

/-- 32-bit complement. -/
def not32 (x : Nat) : Nat := x ^^^ 0xFFFFFFFF

def bigSigma0 (x : Nat) : Nat := rotr32 2 x ^^^ rotr32 13 x ^^^ rotr32 22 x
def bigSigma1 (x : Nat) : Nat := rotr32 6 x ^^^ rotr32 11 x ^^^ rotr32 25 x
def smallSigma0 (x : Nat) : Nat := rotr32 7 x ^^^ rotr32 18 x ^^^ (x >>> 3)
def smallSigma1 (x : Nat) : Nat := rotr32 17 x ^^^ rotr32 19 x ^^^ (x >>> 10)

def shaCh (e f g : Nat) : Nat := (e &&& f) ^^^ (not32 e &&& g)
def shaMaj (a b c : Nat) : Nat := (a &&& b) ^^^ (a &&& c) ^^^ (b &&& c)

/-- The SHA-256 round constants (decimal). -/
def shaK : List Nat :=
  [1116352408, 1899447441, 3049323471, 3921009573, 961987163,
   1508970993, 2453635748, 2870763221, 3624381080, 310598401,
   607225278, 1426881987, 1925078388, 2162078206, 2614888103,
   3248222580, 3835390401, 4022224774, 264347078, 604807628,
   770255983, 1249150122, 1555081692, 1996064986, 2554220882,
   2821834349, 2952996808, 3210313671, 3336571891, 3584528711,
   113926993, 338241895, 666307205, 773529912, 1294757372,
   1396182291, 1695183700, 1986661051, 2177026350, 2456956037,
   2730485921, 2820302411, 3259730800, 3345764771, 3516065817,
   3600352804, 4094571909, 275423344, 430227734, 506948616,
   659060556, 883997877, 958139571, 1322822218, 1537002063,
   1747873779, 1955562222, 2024104815, 2227730452, 2361852424,
   2428436474, 2756734187, 3204031479, 3329325298]

/-- The eight 32-bit working variables of the compression function. -/
structure Hash8 where
  a : Nat
  b : Nat
  c : Nat
  d : Nat
  e : Nat
  f : Nat
  g : Nat
  h : Nat
deriving DecidableEq, Repr

/-- The SHA-256 initial hash value (decimal). -/
def shaInit : Hash8 :=
  ⟨1779033703, 3144134277, 1013904242, 2773480762,
   1359893119, 2600822924, 528734635, 1541459225⟩

/-- One compression round with message word `w` and constant `k`. -/
def shaRound (st : Hash8) (wk : Nat × Nat) : Hash8 :=
  let t1 := (st.h + bigSigma1 st.e + shaCh st.e st.f st.g + wk.2 + wk.1) % 2 ^ 32
  let t2 := (bigSigma0 st.a + shaMaj st.a st.b st.c) % 2 ^ 32
  ⟨(t1 + t2) % 2 ^ 32, st.a, st.b, st.c, (st.d + t1) % 2 ^ 32, st.e, st.f, st.g⟩

/-- Extend a message schedule by `k` further words. -/
def extendW (ws : List Nat) : Nat → List Nat
  | 0 => ws
  | k + 1 =>
    let l := ws.length
    let nw := (ws.getD (l - 16) 0 + smallSigma0 (ws.getD (l - 15) 0) +
               ws.getD (l - 7) 0 + smallSigma1 (ws.getD (l - 2) 0)) % 2 ^ 32
    extendW (ws ++ [nw]) k

/-- Big-endian 32-bit words from bytes, four at a time. -/
def toWords : List Nat → List Nat
  | b0 :: b1 :: b2 :: b3 :: rest =>
    (b0 * 2 ^ 24 + b1 * 2 ^ 16 + b2 * 2 ^ 8 + b3) :: toWords rest
  | _ => []

/-- `k` big-endian bytes of `n` (most significant first). -/
def natToBytesBE (k n : Nat) : List Nat :=
  (List.range k).reverse.map fun i => (n >>> (8 * i)) % 256

/-- SHA-256 padding: `0x80`, zeros to 56 mod 64, then the 64-bit big-endian
bit length. -/
def padMessage (msg : List Nat) : List Nat :=
  let L := msg.length
  let zeros := (119 - L % 64) % 64
  msg ++ [0x80] ++ List.replicate zeros 0 ++ natToBytesBE 8 ((8 * L) % 2 ^ 64)

/-- Fuel-driven split into 64-byte blocks (structural so the kernel can
evaluate it; the fuel is the list length, ample since every step consumes
at least one element). -/
def chunks64Aux : Nat → List Nat → List (List Nat)
  | 0, _ => []
  | fuel + 1, l => if l = [] then [] else l.take 64 :: chunks64Aux fuel (l.drop 64)

def chunks64 (l : List Nat) : List (List Nat) := chunks64Aux l.length l

/-- Process one 64-byte block. -/
def shaBlock (H : Hash8) (blk : List Nat) : Hash8 :=
  let ws := extendW (toWords blk) 48
  let st := (ws.zip shaK).foldl shaRound H
  ⟨(H.a + st.a) % 2 ^ 32, (H.b + st.b) % 2 ^ 32, (H.c + st.c) % 2 ^ 32,
   (H.d + st.d) % 2 ^ 32, (H.e + st.e) % 2 ^ 32, (H.f + st.f) % 2 ^ 32,
   (H.g + st.g) % 2 ^ 32, (H.h + st.h) % 2 ^ 32⟩

/-- The four big-endian bytes of a 32-bit word. -/
def wordBytesBE (w : Nat) : List Nat :=
  [(w >>> 24) % 256, (w >>> 16) % 256, (w >>> 8) % 256, w % 256]

/-- The 32 digest bytes of a final state. -/
def hashBytes (H : Hash8) : List Nat :=
  wordBytesBE H.a ++ wordBytesBE H.b ++ wordBytesBE H.c ++ wordBytesBE H.d ++
  wordBytesBE H.e ++ wordBytesBE H.f ++ wordBytesBE H.g ++ wordBytesBE H.h

/-- SHA-256 of a byte list: 32 digest bytes. -/
def sha256 (msg : List Nat) : List Nat :=
  hashBytes ((chunks64 (padMessage msg)).foldl shaBlock shaInit)

/-- Lower-case hex digit (the `hex` crate encodes lower-case). -/
def hexDigit (n : Nat) : Char :=
  if n < 10 then Char.ofNat (48 + n) else Char.ofNat (87 + n)

/-- Lower-case hex encoding of a byte list (`hex::encode`). -/
def hexEncode (bytes : List Nat) : String :=
  String.mk (bytes.flatMap fun b => [hexDigit (b / 16), hexDigit (b % 16)])

/-- A hexadecimal character: a digit or a letter `a`-`f` (either case). -/
def isHexChar (c : Char) : Bool := c.isDigit || ('a' ≤ c && c ≤ 'f') || ('A' ≤ c && c ≤ 'F')

/-! ## Path addressing (`src/worktree.rs` lines 11-37)

Paths are Unix path strings.  `PathBuf::join` with a relative segment is
modelled as `pathJoin`; `Path::file_name` as the last non-empty slash
component (`none` for the root and for a trailing `..`, matching Rust on
the dot-free absolute paths this tool handles). -/

/-- `PathBuf::join` for a relative segment. -/
def pathJoin (p s : String) : String := p ++ "/" ++ s

/-- `Path::file_name` followed by `to_str`: the final path component. -/
def fileName (p : String) : Option String :=
  let comps := (splitChar '/' p.toList).filter (· ≠ [])
  match comps.getLast? with
  | none => none
  | some c => if c = ['.'] ∨ c = ['.', '.'] then none else some (String.mk c)

/-- `get_hashed_name` (`worktree.rs:11`): lower-case hex of the first 8 bytes
of the SHA-256 digest of the path string's UTF-8 bytes. -/
def get_hashed_name (repo_path : String) : String :=
  hexEncode ((sha256 (utf8Bytes repo_path)).take 8)

/-- `get_worktree_base` (`worktree.rs:20`): `home/_wt/<repoName>_<hash>`.
The home directory is a parameter (`dirs::home_dir`, an external
collaborator); a path with no final component is the `Invalid repository
path` error. -/
def get_worktree_base (home repo_path : String) : Except String String :=
  match fileName repo_path with
  | none => .error "Invalid repository path"
  | some repo_name =>
    .ok (pathJoin (pathJoin home "_wt") (repo_name ++ "_" ++ get_hashed_name repo_path))

/-- `get_worktree_path` (`worktree.rs:34`): the base joined with the branch
name, used verbatim as a path segment. -/
def get_worktree_path (home repo_path branch : String) : Except String String :=
  match get_worktree_base home repo_path with
  | .error e => .error e
  | .ok wt_base => .ok (pathJoin wt_base branch)

/-! ## Worktree-list parsing (`src/git.rs` lines 61-107) -/

/-- One parsed worktree record (`git.rs:54`). -/
structure WorktreeInfo where
  path : String
  branch : String
  is_main : Bool
deriving DecidableEq, Repr

/-- The loop body of `parse_worktree_list`, carried over the remaining lines
with the `current_path` / `current_branch` / `is_main` state.  Note the Rust
`if let (Some(path), Some(branch)) = (current_path.take(), current_branch.take())`
pattern: both options are emptied whether or not the record is pushed, and a
record is pushed only when both are present. -/
def parseLines : List String → Option String → Option String → Bool → List WorktreeInfo
  | [], cp, cb, im =>
    match cp, cb with
    | some p, some b => [⟨p, b, im⟩]
    | _, _ => []
  | line :: rest, cp, cb, im =>
    if "worktree ".toList.isPrefixOf line.toList then
      (match cp, cb with
       | some p, some b => [WorktreeInfo.mk p b im]
       | _, _ => []) ++
      parseLines rest (some (String.mk (trimAll "worktree ".toList line.toList))) none false
    else if "branch ".toList.isPrefixOf line.toList then
      parseLines rest cp
        (some (String.mk (trimAll "refs/heads/".toList (trimAll "branch ".toList line.toList)))) im
    else if "bare".toList.isPrefixOf line.toList then
      parseLines rest cp cb true
    else if line = "" then
      (match cp, cb with
       | some p, some b => [WorktreeInfo.mk p b im]
       | _, _ => []) ++
      parseLines rest none none im
    else
      parseLines rest cp cb im

/-- `parse_worktree_list` (`git.rs:61`): split the porcelain output into
lines and run the record loop.  The Rust function returns `Result` but has
no failure path of its own. -/
def parse_worktree_list (output : String) : List WorktreeInfo :=
  parseLines (rustLines output) none none false

/-! ## The selector engine (`src/tui.rs` lines 185-371)

`run_input_selector` is a single-threaded loop over a query string; we
model one loop iteration as a `step` on the query driven by a key event,
and a session as the fold of `step` over the list of key events.  The
fuzzy matcher (`SkimMatcherV2`, an external crate) is an abstract function
`matcher : String → String → Option Int` carried in the configuration. -/

/-- The result of a selector session (`tui.rs:178`).  `Select` doubles as
the carrier of the `__CREATE_NEW__` sentinel, exactly as in the source. -/
inductive SelectorAction where
  | select (s : String)
  | delete (s : String)
  | cancel
deriving DecidableEq, Repr

/-- Selector session configuration: the candidate labels, the two
capability flags, and the external fuzzy matcher. -/
structure Config where
  items : List String
  allowCreate : Bool
  allowDelete : Bool
  matcher : String → String → Option Int

/-- Insert while keeping scores descending; an element is placed before the
first incumbent whose score is not strictly greater, so earlier elements
stay ahead of later equal-scored ones. -/
def insertDesc (x : String × Int) : List (String × Int) → List (String × Int)
  | [] => [x]
  | y :: ys => if x.2 < y.2 then y :: insertDesc x ys else x :: y :: ys

/-- Stable descending sort by score — the model of Rust's stable
`sort_by(|a, b| b.1.cmp(&a.1))`; its characterizing properties (permutation,
sortedness, stability) are proved below, and any stable sort satisfying the
comparator agrees with it. -/
def sortDesc : List (String × Int) → List (String × Int)
  | [] => []
  | x :: xs => insertDesc x (sortDesc xs)

/-- The filtered list recomputed on every render tick (`tui.rs:196-207`):
the whole candidate list with score 0 for an empty query, otherwise the
scored fuzzy matches sorted by descending score. -/
def filteredItems (cfg : Config) (input : String) : List (String × Int) :=
  if input = "" then cfg.items.map fun s => (s, 0)
  else
    sortDesc (cfg.items.filterMap fun item => (cfg.matcher item input).map fun sc => (item, sc))

/-- Rust's `item.split(" (").next().unwrap_or(item)`: the label with its
trailing parenthesized marker (for instance `" (main)"`) removed. -/
def stripAnnot (s : String) : String :=
  String.mk (takeBeforeSub [' ', '('] s.toList)

/-- The `__CREATE_NEW__` sentinel prefixed by Ctrl+B. -/
def sentinelChars : List Char := "__CREATE_NEW__".toList

/-- The first candidate whose stripped label equals the query up to ASCII
case (`tui.rs:326-329`). -/
def findExact (items : List String) (q : String) : Option String :=
  items.find? fun it => eqIgnoreAsciiCase (stripAnnot it) q

/-- Key codes distinguished by the event match (`tui.rs:312-360`); every
other key is `other`. -/
inductive KCode where
  | char (c : Char)
  | esc
  | backspace
  | tab
  | enter
  | other
deriving DecidableEq, Repr

/-- A key press: code plus whether CONTROL is held. -/
structure KeyEv where
  code : KCode
  ctrl : Bool
deriving DecidableEq, Repr

/-- Outcome of one loop iteration: continue with a new query, or break with
an action. -/
inductive StepRes where
  | cont (q : String)
  | halt (a : SelectorAction)
deriving DecidableEq, Repr

/-- One iteration of the `run_input_selector` event loop (`tui.rs:310-363`),
with the arms in source order: Ctrl+C, Ctrl+B (create, only if allowed and
the query is non-empty), Ctrl+X (delete, only if allowed, non-empty query
and an exact match), Esc, any other character (appended, CONTROL or not,
as in the source), Backspace, Tab (autocomplete with the stripped top
match), Enter (select the stripped top match, no-op on an empty filtered
list), everything else ignored. -/
def step (cfg : Config) (q : String) (k : KeyEv) : StepRes :=
  match k.code with
  | .char c =>
    if k.ctrl ∧ c = 'c' then .halt .cancel
    else if k.ctrl ∧ c = 'b' then
      if cfg.allowCreate ∧ q ≠ "" then .halt (.select ("__CREATE_NEW__" ++ q))
      else .cont q
    else if k.ctrl ∧ c = 'x' then
      if cfg.allowDelete ∧ q ≠ "" then
        match findExact cfg.items q with
        | some m => .halt (.delete (stripAnnot m))
        | none => .cont q
      else .cont q
    else .cont (q.push c)
  | .esc => .halt .cancel
  | .backspace => .cont (String.mk q.toList.dropLast)
  | .tab =>
    .cont (match (filteredItems cfg q).head? with
           | some (m, _) => stripAnnot m
           | none => q)
  | .enter =>
    match (filteredItems cfg q).head? with
    | some (m, _) => .halt (.select (stripAnnot m))
    | none => .cont q
  | .other => .cont q

/-- A whole selector session: fold `step` over the key events from the
empty initial query; `none` when the events run out before a terminating
keystroke (the real loop would keep blocking). -/
def run_input_selector (cfg : Config) (q : String) : List KeyEv → Option SelectorAction
  | [] => none
  | k :: ks =>
    match step cfg q k with
    | .halt a => some a
    | .cont q2 => run_input_selector cfg q2 ks

/-- The caller-side classification of a session result done by
`show_worktree_selector` (`tui.rs:98-108`): an empty selection is a no-op,
a selection carrying the `__CREATE_NEW__` sentinel is an explicit creation
request with the sentinel stripped repeatedly (`trim_start_matches`), and
everything else is an ordinary selection. -/
inductive DAction where
  | noop
  | select (s : String)
  | createNew (s : String)
  | delete (s : String)
  | cancel
deriving DecidableEq, Repr

def decodeAction : SelectorAction → DAction
  | .cancel => .cancel
  | .delete s => .delete s
  | .select s =>
    if s = "" then .noop
    else if sentinelChars.isPrefixOf s.toList then
      .createNew (String.mk (trimAll sentinelChars s.toList))
    else .select s

/-! ## The worktree orchestrator (`src/worktree.rs` lines 115-150)

`handle_worktree` mixes pure path computation with calls to external
collaborators: the filesystem (`Path::exists`, `fs::create_dir_all`), the
git backend (`git::add_worktree`), the registry (`db::update_last_accessed`)
and provisioning (`switch_to_worktree` / `run_auto_setup`, which swallows
all provisioning errors and always returns `Ok`).  The collaborators are
an oracle `GitEnv` fixing this invocation's outcomes, plus the set of
existing filesystem paths; a successful `git worktree add` creates the
worktree directory at the requested path (the backend's documented
lifecycle), so a successful add puts the target into the filesystem set. -/

/-- One observable external call made by the orchestrator. -/
inductive Call where
  | mkdir (path : String)
  | addWorktree (path branch : String) (createBranch : Bool)
  | updateLastAccessed (root : String)
  | provision (path : String)
deriving DecidableEq, Repr

/-- Oracle for one `handle_worktree` invocation: the outcome of
`git worktree add` without and with `-b`, of `fs::create_dir_all`, and of
`db::update_last_accessed` (whose own I/O can fail). -/
structure GitEnv where
  addExisting : Except String Unit
  addNew : Except String Unit
  mkdirOk : Bool
  dbResult : Except String Unit

instance {α β : Type} [DecidableEq α] [DecidableEq β] : DecidableEq (Except α β) := fun x y =>
  match x, y with
  | .error a, .error b =>
    if h : a = b then .isTrue (by rw [h]) else .isFalse (by simp [h])
  | .ok a, .ok b =>
    if h : a = b then .isTrue (by rw [h]) else .isFalse (by simp [h])
  | .error _, .ok _ => .isFalse (by simp)
  | .ok _, .error _ => .isFalse (by simp)

/-- Result of a `handle_worktree` invocation: the returned `Result`, the
trace of external calls in order, and the filesystem set afterwards. -/
structure HandleOutcome where
  result : Except String Unit
  trace : List Call
  fs : List String
deriving DecidableEq, Repr

/-- `handle_worktree` (`worktree.rs:115`).  Mirrors the source order: compute
the target, reuse it if it exists on disk (registry touch then provisioning,
no backend call), otherwise create the base directory, try `add` for an
existing branch, fall back to `add -b` on any failure (the error is not
inspected), wrapping a second failure in the
`Failed to create new branch and worktree` context; on success touch the
registry and provision. -/
def handle_worktree (env : GitEnv) (fs : List String) (home root branch : String) :
    HandleOutcome :=
  match get_worktree_path home root branch with
  | .error e => ⟨.error e, [], fs⟩
  | .ok target =>
    if target ∈ fs then
      match env.dbResult with
      | .error e => ⟨.error e, [.updateLastAccessed root], fs⟩
      | .ok _ => ⟨.ok (), [.updateLastAccessed root, .provision target], fs⟩
    else
      match get_worktree_base home root with
      | .error e => ⟨.error e, [], fs⟩
      | .ok wt_base =>
        if env.mkdirOk then
          let fs1 := wt_base :: fs
          match env.addExisting with
          | .ok _ =>
            match env.dbResult with
            | .error e =>
              ⟨.error e,
               [.mkdir wt_base, .addWorktree target branch false, .updateLastAccessed root],
               target :: fs1⟩
            | .ok _ =>
              ⟨.ok (),
               [.mkdir wt_base, .addWorktree target branch false, .updateLastAccessed root,
                .provision target],
               target :: fs1⟩
          | .error _ =>
            match env.addNew with
            | .error e2 =>
              ⟨.error ("Failed to create new branch and worktree: " ++ e2),
               [.mkdir wt_base, .addWorktree target branch false,
                .addWorktree target branch true],
               fs1⟩
            | .ok _ =>
              match env.dbResult with
              | .error e =>
                ⟨.error e,
                 [.mkdir wt_base, .addWorktree target branch false,
                  .addWorktree target branch true, .updateLastAccessed root],
                 target :: fs1⟩
              | .ok _ =>
                ⟨.ok (),
                 [.mkdir wt_base, .addWorktree target branch false,
                  .addWorktree target branch true, .updateLastAccessed root,
                  .provision target],
                 target :: fs1⟩
        else ⟨.error "create_dir_all failed", [.mkdir wt_base], fs⟩

/-! ## The registry upsert and entry flow (`src/db.rs`, `src/main.rs`) -/

/-- A registry record (`db.rs:12`); timestamps are epoch seconds. -/
structure ProjectInfo where
  path : String
  name : String
  last_accessed : Nat
deriving DecidableEq, Repr

/-- The registry contents: the `projects` map of `db.json`, as an
association list keyed by the path string. -/
def Registry := List (String × ProjectInfo)

/-- `HashMap::insert`: overwrite any record under the same key. -/
def registryInsert (reg : Registry) (key : String) (v : ProjectInfo) : Registry :=
  (key, v) :: (reg.filter fun kv => kv.1 ≠ key)

/-- `save_project` (`db.rs:45`) with the database I/O already read: derive
the display name from the final path component, stamp `now`, and insert
under the path string key. -/
def save_project (reg : Registry) (repo_path : String) (now : Nat) :
    Except String Registry :=
  match fileName repo_path with
  | none => .error "Invalid repository path"
  | some repo_name =>
    .ok (registryInsert reg repo_path ⟨repo_path, repo_name, now⟩)

/-- The observable steps of `handle_git_repo` after the registry write. -/
inductive MainEvent where
  | registryWrite (root : String)
  | worktreeOp (root branch : String)
  | selectorSession (root : String)
deriving DecidableEq, Repr

/-- `handle_git_repo` (`main.rs:48`): save the project first, then either
run the worktree orchestrator for the given branch or open the interactive
selector.  `dbIoOk` is the oracle for the registry file I/O and
`laterResult` the outcome of whichever later operation runs (worktree
orchestration or the whole selector flow); the later outcome never touches the
already-written registry record. -/
def handle_git_repo (dbIoOk : Bool) (laterResult : Except String Unit)
    (reg : Registry) (root : String) (branchArg : Option String) (now : Nat) :
    Except String Unit × Registry × List MainEvent :=
  if dbIoOk then
    match save_project reg root now with
    | .error e => (.error e, reg, [])
    | .ok reg2 =>
      match branchArg with
      | some b => (laterResult, reg2, [.registryWrite root, .worktreeOp root b])
      | none => (laterResult, reg2, [.registryWrite root, .selectorSession root])
  else (.error "database io failed", reg, [])

/-! ## Auxiliary interpretations used by the collision analysis -/

/-- Big-endian numeric value of a byte list. -/
def bytesToNat (l : List Nat) : Nat := l.foldl (fun acc b => acc * 256 + b) 0

/-- A family of pairwise-distinct absolute repository paths all of whose
final path segment is `x`: `/a…a/x` with `n` copies of `a`. -/
def gPath (n : Nat) : String := String.mk ('/' :: (List.replicate n 'a' ++ ['/', 'x']))

/-- A concrete fuzzy matcher used to exercise the selector in witnesses: a
candidate matches when the query is a prefix of it, scoring longer
candidates lower so that ties and exclusions both occur.  (The engine
itself is proved correct for an arbitrary matcher.) -/
def demoMatcher (item q : String) : Option Int :=
  if q.toList.isPrefixOf item.toList then some (100 - Int.ofNat item.toList.length) else none

/-! ## Helper lemmas: hex encoding and digest shape -/

theorem mk_length (l : List Char) : (String.mk l).length = l.length := rfl

theorem mk_toList (s : String) : String.mk s.toList = s := rfl

theorem hexEncode_length (l : List Nat) : (hexEncode l).length = 2 * l.length := by
  unfold hexEncode
  rw [mk_length]
  induction l with
  | nil => rfl
  | cons b t ih => simp [List.flatMap_cons, ih] ; omega

theorem hexDigit_isHexChar (n : Nat) (h : n < 16) : isHexChar (hexDigit n) = true := by
  interval_cases n <;> decide

theorem wordBytesBE_lt (w : Nat) : ∀ b ∈ wordBytesBE w, b < 256 := by
  intro b hb
  simp only [wordBytesBE, List.mem_cons, List.not_mem_nil, or_false] at hb
  rcases hb with rfl | rfl | rfl | rfl <;> exact Nat.mod_lt _ (by norm_num)

theorem hashBytes_lt (H : Hash8) : ∀ b ∈ hashBytes H, b < 256 := by
  intro b hb
  simp only [hashBytes, List.mem_append] at hb
  rcases hb with ((((((h | h) | h) | h) | h) | h) | h) | h <;> exact wordBytesBE_lt _ _ h

theorem hashBytes_length (H : Hash8) : (hashBytes H).length = 32 := by
  simp [hashBytes, wordBytesBE]

theorem sha256_length (msg : List Nat) : (sha256 msg).length = 32 :=
  hashBytes_length _

theorem sha256_lt (msg : List Nat) : ∀ b ∈ sha256 msg, b < 256 :=
  hashBytes_lt _

theorem get_hashed_name_length (p : String) : (get_hashed_name p).length = 16 := by
  unfold get_hashed_name
  rw [hexEncode_length, List.length_take, sha256_length]
  norm_num

theorem get_hashed_name_hex (p : String) :
    ∀ c ∈ (get_hashed_name p).toList, isHexChar c = true := by
  intro c hc
  unfold get_hashed_name hexEncode at hc
  have hc2 : c ∈ ((sha256 (utf8Bytes p)).take 8).flatMap
      (fun b => [hexDigit (b / 16), hexDigit (b % 16)]) := hc
  rw [List.mem_flatMap] at hc2
  obtain ⟨b, hb, hcb⟩ := hc2
  have hblt : b < 256 := sha256_lt _ _ (List.mem_of_mem_take hb)
  simp only [List.mem_cons, List.not_mem_nil, or_false] at hcb
  rcases hcb with rfl | rfl
  · exact hexDigit_isHexChar _ (by omega)
  · exact hexDigit_isHexChar _ (Nat.mod_lt _ (by norm_num))

/-- **C3.** `worktreePath(repoPath, branch)` is
`home/_wt/<repoBaseName>_<suffix>/<branch>` where the suffix is the 16-hex-
character encoding of the first 8 bytes of the SHA-256 digest of the UTF-8
bytes of the repository path string; it is a pure function of its string
arguments (the definition performs no I/O). -/
theorem worktree_path_shape (home repo branch name : String)
    (hname : fileName repo = some name) :
    get_worktree_path home repo branch =
      .ok (home ++ "/" ++ "_wt" ++ "/" ++ name ++ "_" ++
           hexEncode ((sha256 (utf8Bytes repo)).take 8) ++ "/" ++ branch) ∧
    (hexEncode ((sha256 (utf8Bytes repo)).take 8)).length = 16 ∧
    ∀ c ∈ (hexEncode ((sha256 (utf8Bytes repo)).take 8)).toList, isHexChar c = true := by
  refine ⟨?_, ?_, ?_⟩
  · unfold get_worktree_path get_worktree_base
    rw [hname]
    simp only [pathJoin, get_hashed_name, String.append_assoc]
  · have := get_hashed_name_length repo
    unfold get_hashed_name at this
    exact this
  · have := get_hashed_name_hex repo
    unfold get_hashed_name at this
    exact this

/-- Witness for C3 at the spec's own scenario: repository `/home/u/proj`,
branch `feature-x`. -/
theorem worktree_path_shape_witness :
    fileName "/home/u/proj" = some "proj" ∧
    get_worktree_path "/home/u" "/home/u/proj" "feature-x" =
      .ok ("/home/u" ++ "/" ++ "_wt" ++ "/" ++ "proj" ++ "_" ++
           hexEncode ((sha256 (utf8Bytes "/home/u/proj")).take 8) ++ "/" ++ "feature-x") :=
  ⟨by decide, (worktree_path_shape "/home/u" "/home/u/proj" "feature-x" "proj" (by decide)).1⟩

/-! ## Splitting lemmas for path components -/

theorem splitChar_cons_sep (sep : Char) (cs : List Char) :
    splitChar sep (sep :: cs) = [] :: splitChar sep cs := by
  simp [splitChar]

theorem splitChar_ne_nil (sep : Char) (l : List Char) : splitChar sep l ≠ [] := by
  cases l with
  | nil => simp [splitChar]
  | cons c cs =>
    unfold splitChar
    split
    · simp
    · split <;> simp

theorem splitChar_cons_ne (sep c : Char) (cs : List Char) (h : c ≠ sep) :
    splitChar sep (c :: cs) =
      match splitChar sep cs with
      | [] => [[c]]
      | h2 :: t2 => (c :: h2) :: t2 := by
  simp [splitChar, h]

theorem splitChar_noSep_append (sep : Char) (l r : List Char)
    (h : ∀ c ∈ l, c ≠ sep) : splitChar sep (l ++ sep :: r) = l :: splitChar sep r := by
  induction l with
  | nil => exact splitChar_cons_sep sep r
  | cons c t ih =>
    have hc : c ≠ sep := h c (by simp)
    have ht : ∀ c2 ∈ t, c2 ≠ sep := fun c2 hc2 => h c2 (by simp [hc2])
    rw [List.cons_append, splitChar_cons_ne sep c _ hc, ih ht]

theorem fileName_gPath (n : Nat) : fileName (gPath n) = some "x" := by
  have h1 : splitChar '/' ('/' :: (List.replicate n 'a' ++ ['/', 'x'])) =
      [] :: List.replicate n 'a' :: [['x']] := by
    rw [splitChar_cons_sep]
    have : (List.replicate n 'a' ++ ['/', 'x'] : List Char) =
        List.replicate n 'a' ++ '/' :: ['x'] := rfl
    rw [this, splitChar_noSep_append]
    · simp [splitChar]
    · intro c hc
      rw [List.eq_of_mem_replicate hc]
      decide
  unfold fileName gPath
  rw [show (String.mk ('/' :: (List.replicate n 'a' ++ ['/', 'x']))).toList =
      ('/' :: (List.replicate n 'a' ++ ['/', 'x'])) from rfl]
  rw [h1]
  cases n with
  | zero => decide
  | succ m =>
    simp only [List.filter_cons, List.filter_nil]
    norm_num
    decide

theorem gPath_inj {n1 n2 : Nat} (h : n1 ≠ n2) : gPath n1 ≠ gPath n2 := by
  intro heq
  apply h
  unfold gPath at heq
  have hd := congrArg String.data heq
  have hlen := congrArg List.length hd
  simp at hlen
  exact hlen

/-! ## Numeric value of the truncated digest -/

theorem foldl_byte_lt (l : List Nat) :
    ∀ acc, (∀ b ∈ l, b < 256) →
      l.foldl (fun a b => a * 256 + b) acc < (acc + 1) * 256 ^ l.length := by
  induction l with
  | nil =>
    intro acc _
    simp only [List.foldl_nil, List.length_nil, pow_zero, mul_one]
    exact Nat.lt_succ_self acc
  | cons b t ih =>
    intro acc hb
    have hblt : b < 256 := hb b (by simp)
    have ht : ∀ b2 ∈ t, b2 < 256 := fun b2 hb2 => hb b2 (by simp [hb2])
    calc t.foldl (fun a b => a * 256 + b) (acc * 256 + b)
        < (acc * 256 + b + 1) * 256 ^ t.length := ih _ ht
      _ ≤ ((acc + 1) * 256) * 256 ^ t.length :=
          Nat.mul_le_mul_right _ (by omega)
      _ = (acc + 1) * 256 ^ (t.length + 1) := by ring
      _ = (acc + 1) * 256 ^ (b :: t).length := by simp

theorem bytesToNat_lt (l : List Nat) (hb : ∀ b ∈ l, b < 256) (hl : l.length ≤ 8) :
    bytesToNat l < 2 ^ 64 := by
  have h1 := foldl_byte_lt l 0 hb
  have h2 : 256 ^ l.length ≤ 256 ^ 8 := Nat.pow_le_pow_right (by norm_num) hl
  have h3 : (256 : Nat) ^ 8 = 2 ^ 64 := by norm_num
  calc bytesToNat l < (0 + 1) * 256 ^ l.length := h1
    _ = 256 ^ l.length := by ring
    _ ≤ 256 ^ 8 := h2
    _ = 2 ^ 64 := h3

theorem foldl_byte_inj (l1 : List Nat) :
    ∀ (l2 : List Nat) (a1 a2 : Nat), l1.length = l2.length →
      (∀ b ∈ l1, b < 256) → (∀ b ∈ l2, b < 256) →
      l1.foldl (fun a b => a * 256 + b) a1 = l2.foldl (fun a b => a * 256 + b) a2 →
      a1 = a2 ∧ l1 = l2 := by
  induction l1 with
  | nil =>
    intro l2 a1 a2 hlen _ _ hfold
    have : l2 = [] := by
      cases l2 with
      | nil => rfl
      | cons _ _ => simp at hlen
    subst this
    exact ⟨hfold, rfl⟩
  | cons b1 t1 ih =>
    intro l2 a1 a2 hlen hb1 hb2 hfold
    cases l2 with
    | nil => simp at hlen
    | cons b2 t2 =>
      have hlt1 : b1 < 256 := hb1 b1 (by simp)
      have hlt2 : b2 < 256 := hb2 b2 (by simp)
      have ht1 : ∀ b ∈ t1, b < 256 := fun b hb => hb1 b (by simp [hb])
      have ht2 : ∀ b ∈ t2, b < 256 := fun b hb => hb2 b (by simp [hb])
      have hlen2 : t1.length = t2.length := by simpa using hlen
      obtain ⟨hacc, hts⟩ := ih t2 (a1 * 256 + b1) (a2 * 256 + b2) hlen2 ht1 ht2 hfold
      have : a1 = a2 ∧ b1 = b2 := by omega
      exact ⟨this.1, by rw [this.2, hts]⟩

theorem bytesToNat_inj {l1 l2 : List Nat} (hlen : l1.length = l2.length)
    (hb1 : ∀ b ∈ l1, b < 256) (hb2 : ∀ b ∈ l2, b < 256)
    (h : bytesToNat l1 = bytesToNat l2) : l1 = l2 :=
  (foldl_byte_inj l1 l2 0 0 hlen hb1 hb2 h).2

theorem take8_sha_lt (p : String) : bytesToNat ((sha256 (utf8Bytes p)).take 8) < 2 ^ 64 := by
  refine bytesToNat_lt _ (fun b hb => sha256_lt _ _ (List.mem_of_mem_take hb)) ?_
  calc ((sha256 (utf8Bytes p)).take 8).length ≤ 8 := by
        rw [List.length_take] ; omega
    _ ≤ 8 := le_refl _

/-- **C4 counterexample.** The claim "for all repository absolute paths
`p1 ≠ p2` with the same final path segment, `worktreeBase(p1) ≠
worktreeBase(p2)`" is false: the base depends on the path only through the
final segment and the 8-byte (64-bit) truncated digest, and a map from the
infinitely many paths `/a…a/x` into the `2 ^ 64` possible truncated digests
cannot be injective.  The colliding pair exists by pigeonhole; no explicit
pair is feasible to produce (that would be a 64-bit SHA-256 collision). -/
theorem worktree_base_collision_exists :
    ¬ (∀ (home p1 p2 s1 s2 : String), p1 ≠ p2 → fileName p1 = some s1 →
        fileName p2 = some s2 → s1 = s2 →
        get_worktree_base home p1 ≠ get_worktree_base home p2) := by
  intro hclaim
  obtain ⟨n1, n2, hne, heq⟩ := Finite.exists_ne_map_eq_of_infinite
    (fun n : ℕ => (⟨bytesToNat ((sha256 (utf8Bytes (gPath n))).take 8),
                    take8_sha_lt (gPath n)⟩ : Fin (2 ^ 64)))
  have hval : bytesToNat ((sha256 (utf8Bytes (gPath n1))).take 8) =
      bytesToNat ((sha256 (utf8Bytes (gPath n2))).take 8) := congrArg Fin.val heq
  have hlen : ((sha256 (utf8Bytes (gPath n1))).take 8).length =
      ((sha256 (utf8Bytes (gPath n2))).take 8).length := by
    rw [List.length_take, List.length_take, sha256_length, sha256_length]
  have hbytes : (sha256 (utf8Bytes (gPath n1))).take 8 =
      (sha256 (utf8Bytes (gPath n2))).take 8 :=
    bytesToNat_inj hlen
      (fun b hb => sha256_lt _ _ (List.mem_of_mem_take hb))
      (fun b hb => sha256_lt _ _ (List.mem_of_mem_take hb)) hval
  have hhash : get_hashed_name (gPath n1) = get_hashed_name (gPath n2) := by
    unfold get_hashed_name
    exact congrArg hexEncode hbytes
  have hbase : get_worktree_base "/home/u" (gPath n1) =
      get_worktree_base "/home/u" (gPath n2) := by
    unfold get_worktree_base
    rw [fileName_gPath, fileName_gPath, hhash]
  exact hclaim "/home/u" (gPath n1) (gPath n2) "x" "x" (gPath_inj hne)
    (fileName_gPath n1) (fileName_gPath n2) rfl hbase

/-- **C4 (amended).** For paths with the same final segment, the worktree
bases coincide exactly when the 16-hex-character truncated-digest suffixes
coincide: distinct paths with the same final directory name receive
distinct bases unless their 64-bit truncated SHA-256 digests collide (the
universal no-collision claim itself is refuted above by pigeonhole). -/
theorem worktree_base_eq_iff (home p1 p2 s : String)
    (h1 : fileName p1 = some s) (h2 : fileName p2 = some s) :
    get_worktree_base home p1 = get_worktree_base home p2 ↔
      get_hashed_name p1 = get_hashed_name p2 := by
  unfold get_worktree_base
  rw [h1, h2]
  constructor
  · intro hEq
    simp only [Except.ok.injEq] at hEq
    have hd := congrArg String.data hEq
    simp only [pathJoin, String.data_append, List.append_assoc] at hd
    replace hd := List.append_cancel_left hd
    replace hd := List.append_cancel_left hd
    replace hd := List.append_cancel_left hd
    replace hd := List.append_cancel_left hd
    replace hd := List.append_cancel_left hd
    replace hd := List.append_cancel_left hd
    exact congrArg String.mk hd
  · intro hEq
    rw [hEq]

/-- Witness for the amended C4 at two concrete same-basename paths. -/
theorem worktree_base_eq_iff_witness :
    fileName "/home/a/x" = some "x" ∧ fileName "/home/b/x" = some "x" ∧
    (get_worktree_base "/home/u" "/home/a/x" = get_worktree_base "/home/u" "/home/b/x" ↔
      get_hashed_name "/home/a/x" = get_hashed_name "/home/b/x") :=
  ⟨by decide, by decide,
   worktree_base_eq_iff "/home/u" "/home/a/x" "/home/b/x" "x" (by decide) (by decide)⟩

/-! ## The porcelain parser at a bare-main listing (C5)

`git worktree list --porcelain` lists a bare main entry as a `worktree`
line followed by a `bare` line and no `branch` line.  The parser's push
condition requires `current_branch` to be present, so such a record is
dropped from the returned sequence entirely (and its main flag with it),
rather than being returned with `is_main = true`. -/

/-- **C5 (evaluation at the failing input).** A porcelain listing with a
branchless bare record and one ordinary branch record parses to a single
record: the branchless one is omitted — not returned as the main
worktree — and the surviving record has its `refs/heads/` prefix stripped
and `is_main = false`. -/
theorem parse_worktree_list_drops_branchless :
    parse_worktree_list
        "worktree /repo\nbare\n\nworktree /wt\nHEAD deadbeef\nbranch refs/heads/feat\n\n" =
      [⟨"/wt", "feat", false⟩] := by
  decide

/-! ## Stable descending sort: characterizing properties (C6) -/

theorem insertDesc_perm (x : String × Int) (l : List (String × Int)) :
    (insertDesc x l).Perm (x :: l) := by
  induction l with
  | nil => exact List.Perm.refl _
  | cons y ys ih =>
    unfold insertDesc
    split
    · exact (List.Perm.cons y ih).trans (List.Perm.swap x y ys)
    · exact List.Perm.refl _

theorem sortDesc_perm (l : List (String × Int)) : (sortDesc l).Perm l := by
  induction l with
  | nil => exact List.Perm.refl _
  | cons x xs ih =>
    exact (insertDesc_perm x (sortDesc xs)).trans (List.Perm.cons x ih)

theorem insertDesc_pairwise (x : String × Int) (l : List (String × Int))
    (h : l.Pairwise (fun a b => b.2 ≤ a.2)) :
    (insertDesc x l).Pairwise (fun a b => b.2 ≤ a.2) := by
  induction l with
  | nil => simp [insertDesc]
  | cons y ys ih =>
    rw [List.pairwise_cons] at h
    obtain ⟨h1, h2⟩ := h
    unfold insertDesc
    split
    · rename_i hlt
      rw [List.pairwise_cons]
      refine ⟨?_, ih h2⟩
      intro z hz
      have hz2 : z ∈ x :: ys := (insertDesc_perm x ys).mem_iff.mp hz
      rcases List.mem_cons.mp hz2 with rfl | hz3
      · omega
      · exact h1 z hz3
    · rename_i hge
      rw [List.pairwise_cons]
      constructor
      · intro z hz
        rcases List.mem_cons.mp hz with rfl | hz3
        · omega
        · have := h1 z hz3
          omega
      · exact List.pairwise_cons.mpr ⟨h1, h2⟩

theorem sortDesc_pairwise (l : List (String × Int)) :
    (sortDesc l).Pairwise (fun a b => b.2 ≤ a.2) := by
  induction l with
  | nil => simp [sortDesc]
  | cons x xs ih => exact insertDesc_pairwise x (sortDesc xs) ih

theorem insertDesc_filter (x : String × Int) (l : List (String × Int)) (s : Int) :
    (insertDesc x l).filter (fun p => p.2 == s) = (x :: l).filter (fun p => p.2 == s) := by
  induction l with
  | nil => rfl
  | cons y ys ih =>
    unfold insertDesc
    split
    · rename_i hlt
      by_cases hy : y.2 = s
      · have hx : ¬ x.2 = s := by omega
        simp only [List.filter_cons, hy, hx, beq_iff_eq, if_pos, if_neg, ih]
        simp [List.filter_cons, hx]
      · simp only [List.filter_cons, beq_iff_eq, hy, if_neg, ih]
        by_cases hx : x.2 = s <;> simp [List.filter_cons, hx, hy]
    · rfl

theorem sortDesc_filter (l : List (String × Int)) (s : Int) :
    (sortDesc l).filter (fun p => p.2 == s) = l.filter (fun p => p.2 == s) := by
  induction l with
  | nil => rfl
  | cons x xs ih =>
    rw [show sortDesc (x :: xs) = insertDesc x (sortDesc xs) from rfl]
    rw [insertDesc_filter]
    simp only [List.filter_cons]
    rw [ih]

/-- **C6.** On every render tick: with an empty query the filtered list is
the candidate list in its original order; with a non-empty query the
candidates without a fuzzy-match score are excluded (the filtered list is a
permutation of the scored matches), scores are in descending order, and
ties keep their original relative order (for every score, the equal-scored
subsequence is exactly the input's). -/
theorem filtered_items_spec (cfg : Config) (q : String) :
    (filteredItems cfg "").map Prod.fst = cfg.items ∧
    (q ≠ "" →
      (filteredItems cfg q).Perm
        (cfg.items.filterMap fun item => (cfg.matcher item q).map fun sc => (item, sc)) ∧
      (filteredItems cfg q).Pairwise (fun a b => b.2 ≤ a.2) ∧
      ∀ s : Int, (filteredItems cfg q).filter (fun p => p.2 == s) =
        (cfg.items.filterMap fun item => (cfg.matcher item q).map fun sc => (item, sc)).filter
          (fun p => p.2 == s)) := by
  constructor
  · unfold filteredItems
    rw [if_pos rfl]
    induction cfg.items with
    | nil => rfl
    | cons a t ih => simp only [List.map_cons, ih]
  · intro hq
    unfold filteredItems
    rw [if_neg hq]
    exact ⟨sortDesc_perm _, sortDesc_pairwise _, fun s => sortDesc_filter _ s⟩

/-- Witness for C6: a concrete selector configuration with two tying
matches and one excluded candidate; the stability conjunct is instantiated
at the tying score 91. -/
theorem filtered_items_spec_witness :
    ("feat" : String) ≠ "" ∧
    (filteredItems ⟨["feature-a", "feature-b", "main (main)"], true, true, demoMatcher⟩
        "feat").Perm
      ((["feature-a", "feature-b", "main (main)"] : List String).filterMap fun item =>
        (demoMatcher item "feat").map fun sc => (item, sc)) ∧
    (filteredItems ⟨["feature-a", "feature-b", "main (main)"], true, true, demoMatcher⟩
        "feat").Pairwise (fun a b => b.2 ≤ a.2) ∧
    (filteredItems ⟨["feature-a", "feature-b", "main (main)"], true, true, demoMatcher⟩
        "feat").filter (fun p => p.2 == (91 : Int)) =
      ((["feature-a", "feature-b", "main (main)"] : List String).filterMap fun item =>
        (demoMatcher item "feat").map fun sc => (item, sc)).filter
        (fun p => p.2 == (91 : Int)) := by
  have h := (filtered_items_spec
    ⟨["feature-a", "feature-b", "main (main)"], true, true, demoMatcher⟩ "feat").2
    (by decide)
  exact ⟨by decide, h.1, h.2.1, h.2.2 91⟩

/-! ## Selector step and session lemmas (C7, C8, C9) -/

/-- **C7.** Enter in the selector: with a non-empty filtered set the session
terminates with `Select` of the top filtered candidate's label with its
trailing parenthetical annotation stripped; with an empty filtered set the
keypress has no effect — the loop continues and the query is unchanged. -/
theorem enter_spec (cfg : Config) (q : String) (ctrl : Bool) :
    (∀ m sc, (filteredItems cfg q).head? = some (m, sc) →
      step cfg q ⟨.enter, ctrl⟩ = .halt (.select (stripAnnot m))) ∧
    ((filteredItems cfg q).head? = none → step cfg q ⟨.enter, ctrl⟩ = .cont q) := by
  constructor
  · intro m sc h
    simp only [step, h]
  · intro h
    simp only [step, h]

/-- Witness for C7: Enter on query `main` selects the top (and only) match
`main (main)` with the ` (main)` marker stripped. -/
theorem enter_spec_witness :
    (filteredItems ⟨["feature-a", "feature-b", "main (main)"], true, true, demoMatcher⟩
        "main").head? = some ("main (main)", 89) ∧
    step ⟨["feature-a", "feature-b", "main (main)"], true, true, demoMatcher⟩ "main"
        ⟨.enter, false⟩ = .halt (.select "main") :=
  ⟨by decide,
   (enter_spec ⟨["feature-a", "feature-b", "main (main)"], true, true, demoMatcher⟩
      "main" false).1 "main (main)" 89 (by decide)⟩

/-- Any `Delete` break of the event loop comes from the Ctrl+X arm: the
delete capability is on, the query is non-empty, and the payload is the
stripped label of the first exact match. -/
theorem step_halt_delete (cfg : Config) (q : String) (k : KeyEv) (s : String)
    (h : step cfg q k = .halt (.delete s)) :
    cfg.allowDelete = true ∧ q ≠ "" ∧
      ∃ m, findExact cfg.items q = some m ∧ s = stripAnnot m := by
  obtain ⟨code, ctrl⟩ := k
  cases code with
  | char c =>
    simp only [step] at h
    split at h
    · simp at h
    · split at h
      · split at h <;> simp at h
      · split at h
        · split at h
          · rename_i hcond
            cases hfe : findExact cfg.items q with
            | none => rw [hfe] at h ; simp at h
            | some m =>
              rw [hfe] at h
              simp only [StepRes.halt.injEq, SelectorAction.delete.injEq] at h
              exact ⟨hcond.1, hcond.2, m, rfl, h.symm⟩
          · simp at h
        · simp at h
  | esc => simp [step] at h
  | backspace => simp [step] at h
  | tab => simp [step] at h
  | enter =>
    simp only [step] at h
    cases hh : (filteredItems cfg q).head? with
    | none => rw [hh] at h ; simp at h
    | some p => rw [hh] at h ; simp at h
  | other => simp [step] at h

/-- **C8.** In every selector session a `Delete` action is produced only
when `allowDelete` is true, the query at the keypress is non-empty, and
some candidate's display label with its trailing annotation stripped
equals that query up to ASCII case; the payload is that stripped label.
And when no exact match exists, the Ctrl+X keypress leaves the query
unchanged and the session running. -/
theorem delete_reachability (cfg : Config) (q0 : String) (ks : List KeyEv) (s : String) :
    (run_input_selector cfg q0 ks = some (.delete s) →
      cfg.allowDelete = true ∧ ∃ q item, item ∈ cfg.items ∧ q ≠ "" ∧
        eqIgnoreAsciiCase (stripAnnot item) q = true ∧ s = stripAnnot item) ∧
    (∀ q, findExact cfg.items q = none → step cfg q ⟨.char 'x', true⟩ = .cont q) := by
  constructor
  · induction ks generalizing q0 with
    | nil =>
      intro h
      simp [run_input_selector] at h
    | cons k ks ih =>
      intro h
      unfold run_input_selector at h
      cases hstep : step cfg q0 k with
      | halt a =>
        rw [hstep] at h
        simp only [Option.some.injEq] at h
        subst h
        obtain ⟨had, hq, m, hfe, hs⟩ := step_halt_delete cfg q0 k s hstep
        unfold findExact at hfe
        exact ⟨had, q0, m, List.mem_of_find?_eq_some hfe, hq,
               by simpa using List.find?_some hfe, hs⟩
      | cont q2 =>
        rw [hstep] at h
        exact ih q2 h
  · intro q hfe
    by_cases h5 : cfg.allowDelete = true ∧ q ≠ ""
    · simp [step, hfe, h5]
    · simp [step, h5]

/-- Witness for C8: typing `feat` and pressing Ctrl+X with candidate
`feat (main)` produces `Delete "feat"`. -/
theorem delete_reachability_witness :
    run_input_selector ⟨["feat (main)"], true, true, demoMatcher⟩ ""
        [⟨.char 'f', false⟩, ⟨.char 'e', false⟩, ⟨.char 'a', false⟩, ⟨.char 't', false⟩,
         ⟨.char 'x', true⟩] = some (.delete "feat") ∧
    (Config.allowDelete ⟨["feat (main)"], true, true, demoMatcher⟩ = true ∧
      ∃ q item, item ∈ Config.items ⟨["feat (main)"], true, true, demoMatcher⟩ ∧ q ≠ "" ∧
        eqIgnoreAsciiCase (stripAnnot item) q = true ∧ "feat" = stripAnnot item) :=
  ⟨by decide,
   (delete_reachability ⟨["feat (main)"], true, true, demoMatcher⟩ ""
      [⟨.char 'f', false⟩, ⟨.char 'e', false⟩, ⟨.char 'a', false⟩, ⟨.char 't', false⟩,
       ⟨.char 'x', true⟩] "feat").1 (by decide)⟩

/-! ## Sentinel and annotation lemmas (towards C9) -/

theorem takeBeforeSub_isPre (sep : List Char) (l : List Char) :
    takeBeforeSub sep l <+: l := by
  induction l with
  | nil => exact List.nil_prefix
  | cons c cs ih =>
    unfold takeBeforeSub
    split
    · exact List.nil_prefix
    · obtain ⟨r, hr⟩ := ih
      exact ⟨r, by rw [List.cons_append, hr]⟩

theorem trimAllAux_eq (pre : List Char) (f : Nat) :
    ∀ l : List Char, l.length ≤ f → trimAllAux pre f l = trimAll pre l := by
  induction f using Nat.strong_induction_on with
  | _ f ih =>
    intro l hl
    cases f with
    | zero =>
      have : l = [] := List.eq_nil_of_length_eq_zero (Nat.le_zero.mp hl)
      subst this
      rfl
    | succ f2 =>
      by_cases hc : pre ≠ [] ∧ pre.isPrefixOf l
      · have hpl : 1 ≤ pre.length := by
          cases pre with
          | nil => exact absurd rfl hc.1
          | cons _ _ => simp
        have hlp : pre.length ≤ l.length :=
          (List.isPrefixOf_iff_prefix.mp hc.2).length_le
        have hdl : (l.drop pre.length).length ≤ f2 := by
          rw [List.length_drop] ; omega
        have hstep : trimAllAux pre (f2 + 1) l = trimAllAux pre f2 (l.drop pre.length) := by
          rw [show trimAllAux pre (f2 + 1) l =
                (if pre ≠ [] ∧ pre.isPrefixOf l then trimAllAux pre f2 (l.drop pre.length)
                 else l) from rfl,
              if_pos hc]
        have hL : l.length = (l.length - 1) + 1 := by omega
        have hdl2 : (l.drop pre.length).length ≤ l.length - 1 := by
          rw [List.length_drop] ; omega
        have hrhs : trimAll pre l = trimAllAux pre (l.length - 1) (l.drop pre.length) := by
          rw [show trimAll pre l = trimAllAux pre l.length l from rfl]
          conv_lhs => rw [hL]
          rw [show trimAllAux pre ((l.length - 1) + 1) l =
                (if pre ≠ [] ∧ pre.isPrefixOf l then
                  trimAllAux pre (l.length - 1) (l.drop pre.length)
                 else l) from rfl,
              if_pos hc]
        rw [hstep, ih f2 (by omega) _ hdl, hrhs, ih (l.length - 1) (by omega) _ hdl2]
      · have hl0 : trimAllAux pre (f2 + 1) l = l := by
          rw [show trimAllAux pre (f2 + 1) l =
                (if pre ≠ [] ∧ pre.isPrefixOf l then trimAllAux pre f2 (l.drop pre.length)
                 else l) from rfl,
              if_neg hc]
        cases l with
        | nil => rw [hl0] ; rfl
        | cons a t =>
          rw [hl0]
          rw [show trimAll pre (a :: t) = trimAllAux pre (t.length + 1) (a :: t) from rfl]
          rw [show trimAllAux pre (t.length + 1) (a :: t) =
                (if pre ≠ [] ∧ pre.isPrefixOf (a :: t) then
                  trimAllAux pre t.length ((a :: t).drop pre.length)
                 else (a :: t)) from rfl,
              if_neg hc]

theorem trimAll_append (pre l : List Char) (hpre : pre ≠ []) :
    trimAll pre (pre ++ l) = trimAll pre l := by
  have hpl : 1 ≤ pre.length := by
    cases pre with
    | nil => exact absurd rfl hpre
    | cons _ _ => simp
  have hpf : pre.isPrefixOf (pre ++ l) = true :=
    List.isPrefixOf_iff_prefix.mpr (List.prefix_append pre l)
  rw [show trimAll pre (pre ++ l) = trimAllAux pre (pre ++ l).length (pre ++ l) from rfl]
  rw [List.length_append]
  rw [show pre.length + l.length = (pre.length + l.length - 1) + 1 by omega]
  rw [show trimAllAux pre ((pre.length + l.length - 1) + 1) (pre ++ l) =
        (if pre ≠ [] ∧ pre.isPrefixOf (pre ++ l) then
          trimAllAux pre (pre.length + l.length - 1) ((pre ++ l).drop pre.length)
         else (pre ++ l)) from rfl,
      if_pos ⟨hpre, hpf⟩, List.drop_left]
  exact trimAllAux_eq pre _ l (by omega)

theorem trimAll_no_match (pre l : List Char) (h : pre.isPrefixOf l = false) :
    trimAll pre l = l := by
  cases l with
  | nil => rfl
  | cons a t =>
    rw [show trimAll pre (a :: t) = trimAllAux pre (t.length + 1) (a :: t) from rfl]
    rw [show trimAllAux pre (t.length + 1) (a :: t) =
          (if pre ≠ [] ∧ pre.isPrefixOf (a :: t) then
            trimAllAux pre t.length ((a :: t).drop pre.length)
           else (a :: t)) from rfl]
    rw [if_neg]
    intro hc
    rw [h] at hc
    exact Bool.noConfusion hc.2

theorem stripAnnot_no_sentinel (it : String)
    (h : sentinelChars.isPrefixOf it.toList = false) :
    sentinelChars.isPrefixOf (stripAnnot it).toList = false := by
  cases hb : sentinelChars.isPrefixOf (stripAnnot it).toList with
  | false => rfl
  | true =>
    exfalso
    have h1 : sentinelChars <+: (stripAnnot it).toList := List.isPrefixOf_iff_prefix.mp hb
    have h2 : (stripAnnot it).toList <+: it.toList := takeBeforeSub_isPre _ _
    have h3 := List.isPrefixOf_iff_prefix.mpr (h1.trans h2)
    rw [h] at h3
    exact Bool.noConfusion h3

theorem head_filtered_mem (cfg : Config) (q m : String) (sc : Int)
    (h : (filteredItems cfg q).head? = some (m, sc)) : m ∈ cfg.items := by
  have hmem : (m, sc) ∈ filteredItems cfg q := by
    cases hl : filteredItems cfg q with
    | nil => rw [hl] at h ; simp at h
    | cons a t =>
      rw [hl] at h
      simp only [List.head?_cons, Option.some.injEq] at h
      rw [← h]
      exact List.mem_cons_self a t
  by_cases hq : q = ""
  · subst hq
    unfold filteredItems at hmem
    rw [if_pos rfl] at hmem
    obtain ⟨s, hs, heq⟩ := List.mem_map.mp hmem
    cases heq
    exact hs
  · unfold filteredItems at hmem
    rw [if_neg hq] at hmem
    have hmem2 := (sortDesc_perm _).mem_iff.mp hmem
    obtain ⟨item, hitem, hfm⟩ := List.mem_filterMap.mp hmem2
    cases ho : cfg.matcher item q with
    | none => rw [ho] at hfm ; simp at hfm
    | some sc2 =>
      rw [ho] at hfm
      simp only [Option.map_some', Option.some.injEq, Prod.mk.injEq] at hfm
      rw [← hfm.1]
      exact hitem

/-- Every way the event loop can break, characterized: Cancel; the Ctrl+B
sentinel selection, only with `allowCreate` and a non-empty query; an
Enter selection of a stripped candidate label; or a Ctrl+X deletion of a
stripped candidate label, only with `allowDelete` and a non-empty query. -/
theorem step_halt_cases (cfg : Config) (q : String) (k : KeyEv) (a : SelectorAction)
    (h : step cfg q k = .halt a) :
    a = .cancel ∨
    (cfg.allowCreate = true ∧ q ≠ "" ∧ a = .select ("__CREATE_NEW__" ++ q)) ∨
    (∃ m, m ∈ cfg.items ∧ a = .select (stripAnnot m)) ∨
    (∃ m, m ∈ cfg.items ∧ a = .delete (stripAnnot m) ∧
      cfg.allowDelete = true ∧ q ≠ "") := by
  obtain ⟨code, ctrl⟩ := k
  cases code with
  | char c =>
    simp only [step] at h
    split at h
    · exact Or.inl (by simpa using h.symm)
    · split at h
      · split at h
        · rename_i hcond
          refine Or.inr (Or.inl ⟨hcond.1, hcond.2, ?_⟩)
          simpa using h.symm
        · simp at h
      · split at h
        · split at h
          · rename_i hcond
            cases hfe : findExact cfg.items q with
            | none => rw [hfe] at h ; simp at h
            | some m =>
              rw [hfe] at h
              simp only [StepRes.halt.injEq] at h
              refine Or.inr (Or.inr (Or.inr ⟨m, ?_, h.symm, hcond.1, hcond.2⟩))
              unfold findExact at hfe
              exact List.mem_of_find?_eq_some hfe
          · simp at h
        · simp at h
  | esc =>
    simp only [step, StepRes.halt.injEq] at h
    exact Or.inl h.symm
  | backspace => simp [step] at h
  | tab => simp [step] at h
  | enter =>
    simp only [step] at h
    cases hh : (filteredItems cfg q).head? with
    | none => rw [hh] at h ; simp at h
    | some p =>
      rw [hh] at h
      simp only [StepRes.halt.injEq] at h
      exact Or.inr (Or.inr (Or.inl ⟨p.1, head_filtered_mem cfg q p.1 p.2 hh, h.symm⟩))
  | other => simp [step] at h

/-- **C9 (amended).** Provided no candidate label begins with the
`__CREATE_NEW__` sentinel: in every selector session a decoded `CreateNew`
action arises only from the create key with `allowCreate` on and a
non-empty query, and its payload is that query verbatim whenever the query
itself does not begin with the sentinel; decoded `Select` and `Delete`
payloads are always stripped candidate labels, so `CreateNew` is the only
terminal action whose payload can be absent from the candidates.  (Without
the sentinel proviso the original claim fails, see the counterexample.) -/
theorem create_new_reachability (cfg : Config) (q0 : String) (ks : List KeyEv)
    (a : SelectorAction)
    (hit : ∀ it ∈ cfg.items, sentinelChars.isPrefixOf it.toList = false)
    (hrun : run_input_selector cfg q0 ks = some a) :
    (∀ s, decodeAction a = .createNew s → cfg.allowCreate = true ∧
      ∃ q, q ≠ "" ∧ (sentinelChars.isPrefixOf q.toList = false → s = q)) ∧
    (∀ s, decodeAction a = .select s → ∃ it ∈ cfg.items, s = stripAnnot it) ∧
    (∀ s, decodeAction a = .delete s → ∃ it ∈ cfg.items, s = stripAnnot it) := by
  induction ks generalizing q0 with
  | nil => simp [run_input_selector] at hrun
  | cons k ks ih =>
    unfold run_input_selector at hrun
    cases hstep : step cfg q0 k with
    | cont q2 =>
      rw [hstep] at hrun
      exact ih q2 hrun
    | halt a2 =>
      rw [hstep] at hrun
      simp only [Option.some.injEq] at hrun
      subst hrun
      rcases step_halt_cases cfg q0 k a2 hstep with
        rfl | ⟨hac, hq, rfl⟩ | ⟨m, hm, rfl⟩ | ⟨m, hm, rfl, had, hq⟩
      · refine ⟨?_, ?_, ?_⟩ <;> intro s hds <;> simp [decodeAction] at hds
      · have hlist : ("__CREATE_NEW__" ++ q0).toList = sentinelChars ++ q0.toList :=
          String.data_append _ _
        have hne : ("__CREATE_NEW__" ++ q0) ≠ "" := by
          intro he
          have h2 := congrArg String.data he
          rw [String.data_append] at h2
          simp at h2
        have hpre : sentinelChars.isPrefixOf ("__CREATE_NEW__" ++ q0).toList = true := by
          rw [hlist]
          exact List.isPrefixOf_iff_prefix.mpr (List.prefix_append _ _)
        have hdec : decodeAction (.select ("__CREATE_NEW__" ++ q0)) =
            .createNew (String.mk (trimAll sentinelChars q0.toList)) := by
          simp only [decodeAction]
          rw [if_neg hne, if_pos hpre, hlist,
              trimAll_append sentinelChars q0.toList (by decide)]
        refine ⟨?_, ?_, ?_⟩ <;> intro s hds <;> rw [hdec] at hds
        · simp only [DAction.createNew.injEq] at hds
          subst hds
          refine ⟨hac, q0, hq, fun hnp => ?_⟩
          rw [trimAll_no_match _ _ hnp]
          exact mk_toList q0
        · simp at hds
        · simp at hds
      · by_cases hze : stripAnnot m = ""
        · have hdec : decodeAction (.select (stripAnnot m)) = .noop := by
            simp only [decodeAction]
            rw [if_pos hze]
          refine ⟨?_, ?_, ?_⟩ <;> intro s hds <;> rw [hdec] at hds <;> simp at hds
        · have hnp := stripAnnot_no_sentinel m (hit m hm)
          have hdec : decodeAction (.select (stripAnnot m)) = .select (stripAnnot m) := by
            simp only [decodeAction]
            rw [if_neg hze,
                if_neg (show ¬(sentinelChars.isPrefixOf (stripAnnot m).toList = true) by
                  rw [hnp] ; decide)]
          refine ⟨?_, ?_, ?_⟩ <;> intro s hds <;> rw [hdec] at hds
          · simp at hds
          · simp only [DAction.select.injEq] at hds
            exact ⟨m, hm, hds.symm⟩
          · simp at hds
      · refine ⟨?_, ?_, ?_⟩ <;> intro s hds <;>
          rw [show decodeAction (.delete (stripAnnot m)) = .delete (stripAnnot m)
              from rfl] at hds
        · simp at hds
        · simp at hds
        · simp only [DAction.delete.injEq] at hds
          exact ⟨m, hm, hds.symm⟩

/-- **C9 counterexample.** With a candidate literally labelled
`__CREATE_NEW__x`, pressing Enter on the empty query selects it and the
caller decodes a `CreateNew "x"` — although `allowCreate` is false and the
query was empty, and the payload `x` is not the query either.  So the
unconditional claim is false on the code; the sentinel proviso in the
amended statement is necessary. -/
theorem create_new_unguarded :
    run_input_selector ⟨["__CREATE_NEW__x"], false, false, demoMatcher⟩ ""
        [⟨.enter, false⟩] = some (.select "__CREATE_NEW__x") ∧
    decodeAction (.select "__CREATE_NEW__x") = .createNew "x" ∧
    Config.allowCreate ⟨["__CREATE_NEW__x"], false, false, demoMatcher⟩ = false :=
  ⟨by decide, by decide, rfl⟩

/-- Witness for the amended C9: a session that types `f` and presses the
create key; the decoded action is `CreateNew` with the query `f` verbatim. -/
theorem create_new_reachability_witness :
    Config.allowCreate ⟨["feat"], true, true, demoMatcher⟩ = true ∧
    ∃ q, q ≠ "" ∧ (sentinelChars.isPrefixOf q.toList = false → "f" = q) :=
  (create_new_reachability ⟨["feat"], true, true, demoMatcher⟩ ""
    [⟨.char 'f', false⟩, ⟨.char 'b', true⟩] (.select "__CREATE_NEW__f")
    (by decide) (by decide)).1 "f" (by decide)

/-! ## Orchestrator lemmas (C1, C2) -/

/-- In the target-exists branch the orchestrator performs exactly a registry
touch and a provisioning run (when the registry touch succeeds) and leaves
the filesystem alone. -/
theorem handle_worktree_exists (env : GitEnv) (fs : List String)
    (home root branch target : String)
    (htgt : get_worktree_path home root branch = .ok target) (hmem : target ∈ fs)
    (hdb : env.dbResult = .ok ()) :
    handle_worktree env fs home root branch =
      ⟨.ok (), [.updateLastAccessed root, .provision target], fs⟩ := by
  simp [handle_worktree, htgt, hmem, hdb]

/-- In the target-exists branch no backend add call appears in the trace,
whatever the registry outcome. -/
theorem handle_worktree_exists_no_add (env : GitEnv) (fs : List String)
    (home root branch target : String)
    (htgt : get_worktree_path home root branch = .ok target) (hmem : target ∈ fs) :
    ∀ p b c, Call.addWorktree p b c ∉ (handle_worktree env fs home root branch).trace := by
  intro p b c
  cases hdb : env.dbResult with
  | error e => simp [handle_worktree, htgt, hmem, hdb]
  | ok u => simp [handle_worktree, htgt, hmem, hdb]

/-- A successful invocation leaves the target directory existing: either it
already existed, or a backend add succeeded and created it. -/
theorem handle_worktree_ok_mem (env : GitEnv) (fs : List String)
    (home root branch target : String)
    (htgt : get_worktree_path home root branch = .ok target)
    (hok : (handle_worktree env fs home root branch).result = .ok ()) :
    target ∈ (handle_worktree env fs home root branch).fs := by
  by_cases hm : target ∈ fs
  · cases hdb : env.dbResult with
    | error e => simp [handle_worktree, htgt, hm, hdb] at hok
    | ok u => simp [handle_worktree, htgt, hm, hdb]
  · cases hgb : get_worktree_base home root with
    | error e => simp [handle_worktree, htgt, hm, hgb] at hok
    | ok base =>
      cases hmk : env.mkdirOk with
      | false => simp [handle_worktree, htgt, hm, hgb, hmk] at hok
      | true =>
        cases hae : env.addExisting with
        | ok u =>
          cases hdb : env.dbResult with
          | error e => simp [handle_worktree, htgt, hm, hgb, hmk, hae, hdb] at hok
          | ok u2 => simp [handle_worktree, htgt, hm, hgb, hmk, hae, hdb]
        | error e1 =>
          cases han : env.addNew with
          | error e2 => simp [handle_worktree, htgt, hm, hgb, hmk, hae, han] at hok
          | ok u =>
            cases hdb : env.dbResult with
            | error e => simp [handle_worktree, htgt, hm, hgb, hmk, hae, han, hdb] at hok
            | ok u2 => simp [handle_worktree, htgt, hm, hgb, hmk, hae, han, hdb]

/-- **C1.** When the computed target already exists on disk the orchestrator
makes no backend add call, touches the registry's last-accessed stamp for
the repository root, runs provisioning on the target, and succeeds (given
the registry touch itself succeeds); consequently, after any successful
invocation the target exists, so a second invocation never makes a backend
add call, whatever its oracle returns. -/
theorem switch_existing_idempotent (env env2 : GitEnv) (fs : List String)
    (home root branch target : String)
    (htgt : get_worktree_path home root branch = .ok target)
    (hdb : env.dbResult = .ok ()) :
    (target ∈ fs →
      (handle_worktree env fs home root branch).result = .ok () ∧
      (handle_worktree env fs home root branch).trace =
        [.updateLastAccessed root, .provision target] ∧
      ∀ p b c, Call.addWorktree p b c ∉ (handle_worktree env fs home root branch).trace) ∧
    ((handle_worktree env fs home root branch).result = .ok () →
      ∀ p b c, Call.addWorktree p b c ∉
        (handle_worktree env2 (handle_worktree env fs home root branch).fs
          home root branch).trace) := by
  constructor
  · intro hmem
    refine ⟨?_, ?_, handle_worktree_exists_no_add env fs home root branch target htgt hmem⟩
    · rw [handle_worktree_exists env fs home root branch target htgt hmem hdb]
    · rw [handle_worktree_exists env fs home root branch target htgt hmem hdb]
  · intro hok
    exact handle_worktree_exists_no_add env2 _ home root branch target htgt
      (handle_worktree_ok_mem env fs home root branch target htgt hok)

set_option maxRecDepth 100000 in
/-- Witness for C1: the spec's scenario with the worktree already on disk —
zero backend calls, a registry touch, provisioning, success. -/
theorem switch_existing_idempotent_witness :
    (handle_worktree ⟨.error "any", .error "any", true, .ok ()⟩
        ["/home/u/_wt/proj_9c09f8055a26c277/feature-x"]
        "/home/u" "/home/u/proj" "feature-x").result = .ok () ∧
    (handle_worktree ⟨.error "any", .error "any", true, .ok ()⟩
        ["/home/u/_wt/proj_9c09f8055a26c277/feature-x"]
        "/home/u" "/home/u/proj" "feature-x").trace =
      [.updateLastAccessed "/home/u/proj",
       .provision "/home/u/_wt/proj_9c09f8055a26c277/feature-x"] ∧
    Call.addWorktree "/home/u/_wt/proj_9c09f8055a26c277/feature-x" "feature-x" false ∉
      (handle_worktree ⟨.error "any", .error "any", true, .ok ()⟩
        ["/home/u/_wt/proj_9c09f8055a26c277/feature-x"]
        "/home/u" "/home/u/proj" "feature-x").trace := by
  have h := (switch_existing_idempotent ⟨.error "any", .error "any", true, .ok ()⟩
    ⟨.error "any", .error "any", true, .ok ()⟩
    ["/home/u/_wt/proj_9c09f8055a26c277/feature-x"]
    "/home/u" "/home/u/proj" "feature-x"
    "/home/u/_wt/proj_9c09f8055a26c277/feature-x" (by decide) rfl).1 (by decide)
  exact ⟨h.1, h.2.1, h.2.2 _ _ false⟩

/-- **C2.** When the target does not exist and the backend add for an
existing branch fails (any failure, uninspected), the orchestrator attempts
the add-with-new-branch call at the same target path; given the registry
touch succeeds, the whole operation fails — with the backend error
surfaced inside the wrapping context — exactly when the second attempt
also fails. -/
theorem fallback_spec (env : GitEnv) (fs : List String)
    (home root branch target e1 : String)
    (htgt : get_worktree_path home root branch = .ok target)
    (hnot : target ∉ fs) (hmk : env.mkdirOk = true)
    (hfail : env.addExisting = .error e1)
    (hdb : env.dbResult = .ok ()) :
    (Call.addWorktree target branch false ∈ (handle_worktree env fs home root branch).trace ∧
     Call.addWorktree target branch true ∈ (handle_worktree env fs home root branch).trace) ∧
    (∀ e2, env.addNew = .error e2 →
      (handle_worktree env fs home root branch).result =
        .error ("Failed to create new branch and worktree: " ++ e2)) ∧
    ((handle_worktree env fs home root branch).result = .ok () ↔
      ∃ u, env.addNew = .ok u) := by
  have hgb : ∃ base, get_worktree_base home root = .ok base := by
    unfold get_worktree_path at htgt
    cases hb : get_worktree_base home root with
    | error e => rw [hb] at htgt ; simp at htgt
    | ok b => exact ⟨b, rfl⟩
  obtain ⟨base, hb⟩ := hgb
  cases han : env.addNew with
  | error e2 =>
    refine ⟨⟨?_, ?_⟩, ?_, ?_⟩ <;>
      simp [handle_worktree, htgt, hnot, hb, hmk, hfail, han, hdb]
  | ok u =>
    refine ⟨⟨?_, ?_⟩, ?_, ?_⟩ <;>
      simp [handle_worktree, htgt, hnot, hb, hmk, hfail, han, hdb]

set_option maxRecDepth 100000 in
/-- Witness for C2: empty filesystem, first add fails with `no branch`,
second fails with `boom` — both attempts appear in the trace and the
operation fails with the wrapped backend error. -/
theorem fallback_spec_witness :
    Call.addWorktree "/home/u/_wt/proj_9c09f8055a26c277/feature-x" "feature-x" false ∈
      (handle_worktree ⟨.error "no branch", .error "boom", true, .ok ()⟩ []
        "/home/u" "/home/u/proj" "feature-x").trace ∧
    Call.addWorktree "/home/u/_wt/proj_9c09f8055a26c277/feature-x" "feature-x" true ∈
      (handle_worktree ⟨.error "no branch", .error "boom", true, .ok ()⟩ []
        "/home/u" "/home/u/proj" "feature-x").trace ∧
    (handle_worktree ⟨.error "no branch", .error "boom", true, .ok ()⟩ []
        "/home/u" "/home/u/proj" "feature-x").result =
      .error ("Failed to create new branch and worktree: " ++ "boom") := by
  have h := fallback_spec ⟨.error "no branch", .error "boom", true, .ok ()⟩ []
    "/home/u" "/home/u/proj" "feature-x"
    "/home/u/_wt/proj_9c09f8055a26c277/feature-x" "no branch"
    (by decide) (by decide) rfl rfl rfl
  exact ⟨h.1.1, h.1.2, h.2.1 "boom" rfl⟩

/-! ## Entry flow (C10) -/

/-- **C10.** Inside a git repository the tool first upserts the repository
into the registry — key the path string, display name the final path
segment, last-accessed the current time — and only then runs the worktree
operation or the selector: the registry write is the first observable
event, and the stored record does not depend on the later operation's
outcome (`laterResult` is arbitrary, covering cancellation and failure). -/
theorem registry_written_first (dbIoOk : Bool) (laterResult : Except String Unit)
    (reg : Registry) (root : String) (branchArg : Option String) (now : Nat)
    (name : String) (hio : dbIoOk = true) (hname : fileName root = some name) :
    List.lookup root (handle_git_repo dbIoOk laterResult reg root branchArg now).2.1 =
      some ⟨root, name, now⟩ ∧
    (handle_git_repo dbIoOk laterResult reg root branchArg now).2.2.head? =
      some (.registryWrite root) := by
  subst hio
  cases branchArg with
  | none =>
    constructor
    · simp [handle_git_repo, save_project, hname, registryInsert, List.lookup]
    · simp [handle_git_repo, save_project, hname]
  | some b =>
    constructor
    · simp [handle_git_repo, save_project, hname, registryInsert, List.lookup]
    · simp [handle_git_repo, save_project, hname]

/-- Witness for C10: the record is stored and the write precedes the
selector session even though the later operation reports failure. -/
theorem registry_written_first_witness :
    List.lookup "/home/u/proj"
        (handle_git_repo true (.error "cancelled") [] "/home/u/proj" none 12345).2.1 =
      some ⟨"/home/u/proj", "proj", 12345⟩ ∧
    (handle_git_repo true (.error "cancelled") [] "/home/u/proj" none 12345).2.2.head? =
      some (.registryWrite "/home/u/proj") :=
  registry_written_first true (.error "cancelled") [] "/home/u/proj" none 12345 "proj"
    rfl (by decide)

end WtManager
